import Mathlib

/-!
Verification of the victor chat-bot dispatch engine (dispatch.go) against its
natural-language specification.

The Go source is shallowly embedded: strings are lists of `Char` (Go iterates
runes, and all slicing in the source happens at rune boundaries), the
`map[string]HandlerDocPair` is an association list with overwrite-on-insert,
compiled regular expressions supplied by callers are embedded as their
`MatchString` functions `List Char → Bool`, and handler functions are
identified by opaque numeric ids.  A call to `ProcessMessage` is embedded as a
pure function producing the `DispatchAction` the Go code would perform
(which handler is invoked with which fields, or the log/drop outcome).
-/

namespace Victor

/-- Strings are modelled as lists of runes (Go `range` iterates runes, and all
slice boundaries taken in dispatch.go are rune boundaries). -/
abbrev Str := List Char

/-- Lexicographic byte-order comparison of Go strings.  Go compares strings by
bytes; UTF-8 byte order coincides with code-point order, so rune-wise
lexicographic comparison is faithful. -/
def strLt : Str → Str → Bool
  | [], [] => false
  | [], _ :: _ => true
  | _ :: _, [] => false
  | a :: as, b :: bs =>
    if a < b then true
    else if b < a then false
    else strLt as bs

/-- The character class of RE2's `\s`, i.e. `[\t\n\f\r ]` (used in the bot-name
regular expression). -/
def goRegexSpace (c : Char) : Bool :=
  decide (c.toNat = 0x09 ∨ c.toNat = 0x0a ∨ c.toNat = 0x0c ∨ c.toNat = 0x0d ∨ c.toNat = 0x20)

/-- Go's `unicode.IsSpace`: the Unicode `White_Space` property
(used by `parseFields`). -/
def goIsSpace (c : Char) : Bool :=
  decide ((0x09 ≤ c.toNat ∧ c.toNat ≤ 0x0d) ∨ c.toNat = 0x20 ∨ c.toNat = 0x85 ∨
    c.toNat = 0xa0 ∨ c.toNat = 0x1680 ∨ (0x2000 ≤ c.toNat ∧ c.toNat ≤ 0x200a) ∨
    c.toNat = 0x2028 ∨ c.toNat = 0x2029 ∨ c.toNat = 0x202f ∨ c.toNat = 0x205f ∨
    c.toNat = 0x3000)

/-- Go's `strings.ToLower` restricted to ASCII (every string occurring in the
claims is ASCII; `Char.toLower` lower-cases exactly the ASCII uppercase
letters). -/
def toLowerStr (s : Str) : Str := s.map Char.toLower

/-- The loop of `parseFields` (dispatch.go).  The Go code walks the input by
rune keeping `skipSpaces : Bool` and the start index of the current field
(`-1` when outside a field); the slice `input[fieldStart:i]` is represented by
the accumulator `field` holding the runes of the current field in reverse
(`none` corresponds to `fieldStart == -1`). -/
def parseFieldsAux : Str → Bool → Option Str → List Str
  | [], _, none => []
  | [], _, some field => [field.reverse]
  | r :: rest, skipSpaces, field =>
    if r = '"' then
      match field with
      | none =>
        -- start field (content starts after the quote)
        parseFieldsAux rest false (some [])
      | some acc =>
        -- end field
        acc.reverse :: parseFieldsAux rest true none
    else if goIsSpace r ∧ skipSpaces then
      match field with
      | some acc =>
        -- end field if not in a quoted field
        acc.reverse :: parseFieldsAux rest skipSpaces none
      | none => parseFieldsAux rest skipSpaces none
    else
      match field with
      | none =>
        -- start field
        parseFieldsAux rest skipSpaces (some [r])
      | some acc => parseFieldsAux rest skipSpaces (some (r :: acc))

/-- `parseFields` (dispatch.go): quote-aware whitespace tokenizer. -/
def parseFields (input : Str) : List Str :=
  parseFieldsAux input true none

/-- Case-insensitive literal match of `name` against a prefix of the text,
returning the remaining text (the `(?i)` literal-matching part of the bot-name
regular expression; RE2 simple case folding coincides with ASCII lower-casing
on the ASCII names considered here). -/
def stripCI : Str → Str → Option Str
  | [], text => some text
  | _ :: _, [] => none
  | n :: ns, t :: ts => if n.toLower = t.toLower then stripCI ns ts else none

/-- Matcher for the compiled bot-name regular expression
`fmt.Sprintf("(?i)^@%s\s*[:,]?\s*", name)` of dispatch.go (line 17), for bot
names made of regex-literal characters.  Returns the length of
`FindString`'s match as `some n` (the pattern is anchored, and any match
consumes at least the leading `@`), or `none` when there is no match — in
which case Go's `FindString` returns the empty string.  The trailing
`\s*[:,]?\s*` is greedy and, as `:`/`,` are not `\s`, greedy consumption
left-to-right is the unique leftmost-longest behaviour. -/
def botNameMatchLen (name : Str) (text : Str) : Option Nat :=
  match text with
  | [] => none
  | c :: rest =>
    if c = '@' then
      match stripCI name rest with
      | none => none
      | some r1 =>
        let sp1 := r1.takeWhile goRegexSpace
        let r2 := r1.drop sp1.length
        match r2 with
        | [] => some (1 + name.length + sp1.length)
        | p :: r3 =>
          if p = ':' ∨ p = ',' then
            some (1 + name.length + sp1.length + 1 + (r3.takeWhile goRegexSpace).length)
          else
            some (1 + name.length + sp1.length)
    else none

/-- An inbound chat message (`chat.Message`): only the fields `ProcessMessage`
reads. -/
structure Message where
  text : Str
  isDirectMessage : Bool

/-- `HandlerDoc` (dispatch.go): a registered command.  The handler function is
identified by an opaque id; a compiled regexp is embedded as its `MatchString`
function (`cmdRegexp = none` is Go's nil regexp, i.e. a non-regexp command). -/
structure HandlerDoc where
  cmdHandler : Nat
  cmdName : Str
  cmdDescription : Str
  cmdUsage : List Str
  cmdIsHidden : Bool
  cmdRegexp : Option (Str → Bool)

/-- `handlerPair` (dispatch.go): a free pattern with its handler. -/
structure HandlerPair where
  exp : Str → Bool
  handle : Nat

/-- The `dispatch` struct (dispatch.go).  The Go `map[string]HandlerDocPair`
is embedded as an association list with overwrite-on-insert (`mapInsert`), and
the compiled `botNameRegex` is represented by the bot name it was built from
(matching is `botNameMatchLen`). -/
structure Dispatch where
  defaultHandler : Option Nat
  commands : List (Str × HandlerDoc)
  regexpCommands : List HandlerDoc
  commandNames : List Str
  patterns : List HandlerPair
  botName : Str

/-- `newDispatch` (dispatch.go): the empty registry for a bot of the given
name. -/
def newDispatch (botName : Str) : Dispatch :=
  { defaultHandler := none
    commands := []
    regexpCommands := []
    commandNames := []
    patterns := []
    botName := botName }

/-- Lookup `m[key]` in the embedded Go map. -/
def mapLookup (m : List (Str × HandlerDoc)) (key : Str) : Option HandlerDoc :=
  match m.find? (fun p => p.1 == key) with
  | some p => some p.2
  | none => none

/-- Assignment `m[key] = v` in the embedded Go map: overwrite the existing
binding or add a new one. -/
def mapInsert (m : List (Str × HandlerDoc)) (key : Str) (v : HandlerDoc) :
    List (Str × HandlerDoc) :=
  match m with
  | [] => [(key, v)]
  | p :: rest => if p.1 == key then (key, v) :: rest else p :: mapInsert rest key v

/-- `appendInOrderWithoutRepeats` (dispatch.go lines 173-186): insert `toAdd`
into `array` at the position found by `sort.SearchStrings` unless it is
already there.  On a sorted array `sort.SearchStrings` returns the smallest
index whose element is not below `toAdd`, which is the length of the maximal
prefix of elements below `toAdd`. -/
def appendInOrderWithoutRepeats (array : List Str) (toAdd : Str) : List Str :=
  let pos := (array.takeWhile (fun s => strLt s toAdd)).length
  if pos = array.length ∨ ¬ array.get? pos = some toAdd then
    array.take pos ++ toAdd :: array.drop pos
  else
    array

/-- `HandleCommand` (dispatch.go lines 231-247): register an exact-name
command.  The lookup key is the lower-cased name; the stored copy keeps the
original-case name but (as in the source) not any regexp; the lower-cased
name is inserted into the sorted name list. -/
def HandleCommand (d : Dispatch) (cmd : HandlerDoc) : Dispatch :=
  let lowerName := toLowerStr cmd.cmdName
  let newCmd : HandlerDoc :=
    { cmdHandler := cmd.cmdHandler
      cmdName := cmd.cmdName
      cmdDescription := cmd.cmdDescription
      cmdUsage := cmd.cmdUsage
      cmdIsHidden := cmd.cmdIsHidden
      cmdRegexp := none }
  { d with
    commands := mapInsert d.commands lowerName newCmd
    commandNames := appendInOrderWithoutRepeats d.commandNames lowerName }

/-- `HandleCommandRegexp` (dispatch.go lines 273-291): append a regexp command
(a nil regexp makes the Go code panic at setup time, so the embedded pattern
is total) and insert the lower-cased name into the sorted name list. -/
def HandleCommandRegexp (d : Dispatch) (exp : Str → Bool) (cmd : HandlerDoc) : Dispatch :=
  let lowerName := toLowerStr cmd.cmdName
  let newCmd : HandlerDoc :=
    { cmdHandler := cmd.cmdHandler
      cmdName := cmd.cmdName
      cmdDescription := cmd.cmdDescription
      cmdUsage := cmd.cmdUsage
      cmdIsHidden := cmd.cmdIsHidden
      cmdRegexp := some exp }
  { d with
    regexpCommands := d.regexpCommands ++ [newCmd]
    commandNames := appendInOrderWithoutRepeats d.commandNames lowerName }

/-- `HandleRegexp` (dispatch.go lines 417-428): append a free pattern. -/
def HandleRegexp (d : Dispatch) (exp : Str → Bool) (handler : Nat) : Dispatch :=
  { d with patterns := d.patterns ++ [{ exp := exp, handle := handler }] }

/-- `SetDefaultHandler` (dispatch.go lines 437-444): last write wins (a
previously set handler only triggers a log line). -/
def SetDefaultHandler (d : Dispatch) (handler : Nat) : Dispatch :=
  { d with defaultHandler := some handler }

/-- The externally visible outcome of one `ProcessMessage` call: which handler
is invoked, through which call site, with which `state.fields` — or the
log/drop outcome when none is. -/
inductive DispatchAction where
  | invokeCommand (handler : Nat) (fields : List Str)
  | invokeRegexpCommand (handler : Nat) (fields : List Str)
  | invokeDefault (handler : Nat) (fields : List Str)
  | logNoDefault
  | invokePattern (handler : Nat) (fields : List Str)
  | dropped
  deriving DecidableEq, Repr

/-- `findCommandRegexp` (dispatch.go lines 561-568): linear search of the
regexp-command list in insertion order; first whose pattern matches wins. -/
def findCommandRegexp (d : Dispatch) (commandPart : Str) : Option HandlerDoc :=
  d.regexpCommands.find? (fun cmd =>
    match cmd.cmdRegexp with
    | some exp => exp commandPart
    | none => false)

/-- `matchCommandRegexp` (dispatch.go lines 539-551). -/
def matchCommandRegexp (d : Dispatch) (commandName : Str) (fields : List Str) :
    Option DispatchAction :=
  match findCommandRegexp d commandName with
  | none => none
  | some cmd => some (DispatchAction.invokeRegexpCommand cmd.cmdHandler fields)

/-- `matchCommands` (dispatch.go lines 509-526): tokenize the remaining text,
look the lower-cased first token up among exact commands, falling back to the
regexp commands.  `none` is Go's `return false`. -/
def matchCommands (d : Dispatch) (messageText : Str) : Option DispatchAction :=
  match parseFields messageText with
  | [] => none
  | first :: fields =>
    let commandName := toLowerStr first
    match mapLookup d.commands commandName with
    | some command =>
      if command.cmdRegexp.isSome then
        matchCommandRegexp d commandName fields
      else
        some (DispatchAction.invokeCommand command.cmdHandler fields)
    | none => matchCommandRegexp d commandName fields

/-- `callDefault` (dispatch.go lines 488-499): tokenize the full remaining
text and hand it to the default handler, or log when none is set. -/
def callDefault (d : Dispatch) (messageText : Str) : DispatchAction :=
  let fields := parseFields messageText
  match d.defaultHandler with
  | some h => DispatchAction.invokeDefault h fields
  | none => DispatchAction.logNoDefault

/-- `matchPatterns` (dispatch.go lines 577-588): first free pattern matching
the full message text wins; its handler gets a state without fields (empty
argument list). -/
def matchPatterns (d : Dispatch) (m : Message) : DispatchAction :=
  match d.patterns.find? (fun pair => pair.exp m.text) with
  | some pair => DispatchAction.invokePattern pair.handle []
  | none => DispatchAction.dropped

/-- The Go local `len(nameMatch)` in `ProcessMessage`: the length of
`botNameRegex.FindString(m.Text())` (0 when there is no match). -/
def nameMatchLen (d : Dispatch) (m : Message) : Nat :=
  (botNameMatchLen d.botName m.text).getD 0

/-- The Go local `messageText = messageText[len(nameMatch):]` inside the
addressed branch of `ProcessMessage`. -/
def remainingText (d : Dispatch) (m : Message) : Str :=
  m.text.drop (nameMatchLen d m)

/-- The condition `len(nameMatch) > 0 || m.IsDirectMessage()` of
`ProcessMessage`. -/
def isAddressed (d : Dispatch) (m : Message) : Bool :=
  decide (0 < nameMatchLen d m) || m.isDirectMessage

/-- `ProcessMessage` (dispatch.go lines 460-480), as the action it performs.
The final branch mirrors the source's `else if len(nameMatch) == 0` (whose
negative side, provably unreachable, does nothing). -/
def processMessage (d : Dispatch) (m : Message) : DispatchAction :=
  if isAddressed d m then
    match matchCommands d (remainingText d m) with
    | some act => act
    | none => callDefault d (remainingText d m)
  else if nameMatchLen d m = 0 then
    matchPatterns d m
  else
    DispatchAction.dropped

/-- The entries rendered by `showAllCommands` (dispatch.go lines 611-632):
walk the sorted name list, skip names with no entry in the exact-command map
and hidden entries, and render each survivor's original-case name and
description. -/
def showAllCommandsEntries (d : Dispatch) : List (Str × Str) :=
  d.commandNames.filterMap (fun name =>
    match mapLookup d.commands name with
    | none => none
    | some docPair =>
      if docPair.cmdIsHidden then none
      else some (docPair.cmdName, docPair.cmdDescription))

/-- A handler's runtime behaviour when invoked: it either returns normally or
panics with a value (`Except.error`). -/
abbrev HandlerBehaviors := Nat → Except Str Unit

/-- Running the handler invocation chosen by the dispatch decision.  The
log-only and drop outcomes invoke no handler and cannot panic. -/
def runAction (behaviors : HandlerBehaviors) : DispatchAction → Except Str Unit
  | DispatchAction.invokeCommand h _ => behaviors h
  | DispatchAction.invokeRegexpCommand h _ => behaviors h
  | DispatchAction.invokeDefault h _ => behaviors h
  | DispatchAction.invokePattern h _ => behaviors h
  | DispatchAction.logNoDefault => Except.ok ()
  | DispatchAction.dropped => Except.ok ()

/-- Outcome of a full `ProcessMessage` call: a normal return (with the
recovered-panic log entry, if any, carrying the message text and the panic
value) or a panic escaping the call. -/
inductive ProcessOutcome where
  | completed (panicLog : Option (Str × Str))
  | panicked (err : Str)
  deriving DecidableEq

/-- `ProcessMessage` behaviour if the `defer`ed `recover` block (dispatch.go
lines 463-468) were absent: a handler panic escapes the call. -/
def processMessageNoRecover (behaviors : HandlerBehaviors) (d : Dispatch) (m : Message) :
    ProcessOutcome :=
  match runAction behaviors (processMessage d m) with
  | Except.ok _ => ProcessOutcome.completed none
  | Except.error e => ProcessOutcome.panicked e

/-- The `defer`ed `recover` block of `ProcessMessage` (dispatch.go lines
463-468): any panic is converted into a normal return after logging the
message text together with the panic value. -/
def recoverWrap (m : Message) : ProcessOutcome → ProcessOutcome
  | ProcessOutcome.panicked e => ProcessOutcome.completed (some (m.text, e))
  | o => o

/-- `ProcessMessage` including its panic recovery. -/
def processMessageRun (behaviors : HandlerBehaviors) (d : Dispatch) (m : Message) :
    ProcessOutcome :=
  recoverWrap m (processMessageNoRecover behaviors d m)

/-! Helper lemmas about the embedded definitions. -/

/-- A bot-name regex match always starts with the literal `@`. -/
theorem botNameMatchLen_head (name text : Str) (h : botNameMatchLen name text ≠ none) :
    text.head? = some '@' := by
  match text with
  | [] => simp [botNameMatchLen] at h
  | c :: rest =>
    by_cases hc : c = '@'
    · simp [hc]
    · simp [botNameMatchLen, hc] at h

/-- All-whitespace input never opens a field. -/
theorem parseFieldsAux_all_space (input : Str) (h : ∀ c ∈ input, goIsSpace c = true) :
    parseFieldsAux input true none = [] := by
  induction input with
  | nil => rfl
  | cons r rest ih =>
    have hr : goIsSpace r = true := h r (by simp)
    have hq : ¬ r = '"' := by
      intro e
      rw [e] at hr
      simp [goIsSpace] at hr
    simp only [parseFieldsAux, if_neg hq]
    rw [if_pos ⟨hr, trivial⟩]
    exact ih (fun c hc => h c (by simp [hc]))

/-- Inside an unterminated quoted field, every remaining rune (whitespace
included) is accumulated into the final token. -/
theorem parseFieldsAux_open (content : Str) (h : '"' ∉ content) (acc : Str) :
    parseFieldsAux content false (some acc) = [acc.reverse ++ content] := by
  induction content generalizing acc with
  | nil => simp [parseFieldsAux]
  | cons c cs ih =>
    have hc : ¬ c = '"' := by
      intro e
      exact h (by simp [e])
    simp only [parseFieldsAux, if_neg hc]
    rw [if_neg (by simp)]
    rw [ih (fun hm => h (by simp [hm])) (c :: acc)]
    simp

/-- A quote-delimited field is emitted verbatim and processing of the rest
restarts in the initial state. -/
theorem parseFieldsAux_quoted (content rest : Str) (h : '"' ∉ content) (acc : Str) :
    parseFieldsAux (content ++ '"' :: rest) false (some acc) =
      (acc.reverse ++ content) :: parseFieldsAux rest true none := by
  induction content generalizing acc with
  | nil => simp [parseFieldsAux]
  | cons c cs ih =>
    have hc : ¬ c = '"' := by
      intro e
      exact h (by simp [e])
    simp only [List.cons_append, parseFieldsAux, if_neg hc]
    rw [if_neg (by simp)]
    simp only [List.append_eq]
    rw [ih (fun hm => h (by simp [hm])) (c :: acc)]
    simp

/-- Without quote characters, every emitted token is nonempty. -/
theorem parseFieldsAux_no_empty (input : Str) (hq : '"' ∉ input) :
    ∀ (skipSpaces : Bool) (field : Option Str),
      (∀ acc, field = some acc → acc ≠ []) →
      [] ∉ parseFieldsAux input skipSpaces field := by
  induction input with
  | nil =>
    intro sk field hf
    match field with
    | none => simp [parseFieldsAux]
    | some acc =>
      have hacc : acc ≠ [] := hf acc rfl
      simp only [parseFieldsAux, List.mem_singleton]
      intro h
      exact hacc (by simpa using congrArg List.reverse h.symm)
  | cons r rest ih =>
    intro sk field hf
    have hr : ¬ r = '"' := by
      intro e
      exact hq (by simp [e])
    have hq' : '"' ∉ rest := fun hm => hq (by simp [hm])
    simp only [parseFieldsAux, if_neg hr]
    by_cases hsp : goIsSpace r = true ∧ sk = true
    · rw [if_pos hsp]
      match field with
      | some acc =>
        have hacc : acc ≠ [] := hf acc rfl
        simp only [List.mem_cons]
        rintro (h | h)
        · exact hacc (by simpa using congrArg List.reverse h.symm)
        · exact ih hq' sk none (by simp) h
      | none => exact ih hq' sk none (by simp)
    · rw [if_neg hsp]
      match field with
      | none => exact ih hq' sk (some [r]) (by simp)
      | some acc => exact ih hq' sk (some (r :: acc)) (by simp)

/-- Go string comparison is irreflexive. -/
theorem strLt_irrefl : ∀ s : Str, strLt s s = false
  | [] => rfl
  | c :: cs => by
    simp only [strLt, if_neg (lt_irrefl c)]
    exact strLt_irrefl cs

/-- Go string comparison is transitive. -/
theorem strLt_trans : ∀ (a b c : Str), strLt a b = true → strLt b c = true → strLt a c = true
  | [], [], _, h1, _ => by simp [strLt] at h1
  | [], _ :: _, [], _, h2 => by simp [strLt] at h2
  | [], _ :: _, _ :: _, _, _ => rfl
  | _ :: _, [], _, h1, _ => by simp [strLt] at h1
  | _ :: _, _ :: _, [], _, h2 => by simp [strLt] at h2
  | x :: xs, y :: ys, z :: zs, h1, h2 => by
    simp only [strLt] at h1 h2 ⊢
    rcases lt_trichotomy x y with hxy | hxy | hxy
    · rcases lt_trichotomy y z with hyz | hyz | hyz
      · rw [if_pos (lt_trans hxy hyz)]
      · subst hyz
        rw [if_pos hxy]
      · rw [if_neg (asymm hyz), if_pos hyz] at h2
        cases h2
    · subst hxy
      rcases lt_trichotomy x z with hxz | hxz | hxz
      · rw [if_pos hxz]
      · subst hxz
        rw [if_neg (lt_irrefl x), if_neg (lt_irrefl x)] at h1 h2 ⊢
        exact strLt_trans _ _ _ h1 h2
      · rw [if_neg (asymm hxz), if_pos hxz] at h2
        cases h2
    · rw [if_neg (asymm hxy), if_pos hxy] at h1
      cases h1

/-- Two Go strings neither of which is below the other are equal. -/
theorem strLt_connex : ∀ (a b : Str), strLt a b = false → strLt b a = false → a = b
  | [], [], _, _ => rfl
  | [], _ :: _, h1, _ => by simp [strLt] at h1
  | _ :: _, [], _, h2 => by simp [strLt] at h2
  | x :: xs, y :: ys, h1, h2 => by
    rcases lt_trichotomy x y with hxy | hxy | hxy
    · simp only [strLt, if_pos hxy] at h1
      exact Bool.noConfusion h1
    · subst hxy
      simp only [strLt, if_neg (lt_irrefl x)] at h1 h2
      rw [strLt_connex xs ys h1 h2]
    · simp only [strLt, if_pos hxy] at h2
      exact Bool.noConfusion h2

/-- The display-name list invariant: strictly sorted in Go string order
(which implies freedom from duplicates). -/
def SortedNames (l : List Str) : Prop :=
  l.Pairwise (fun a b => strLt a b = true)

/-- A strictly sorted name list has no duplicates. -/
theorem SortedNames.nodup {l : List Str} (h : SortedNames l) : l.Nodup :=
  h.imp (fun hab => by
    intro he
    subst he
    rw [strLt_irrefl] at hab
    cases hab)

/-- Taking as many elements as the maximal satisfying prefix yields that
prefix. -/
theorem take_length_takeWhile {α : Type} (p : α → Bool) :
    ∀ l : List α, l.take (l.takeWhile p).length = l.takeWhile p
  | [] => rfl
  | a :: t => by
    by_cases hp : p a
    · simp [List.takeWhile_cons, hp, take_length_takeWhile p t]
    · simp [List.takeWhile_cons, hp]

/-- Dropping the maximal satisfying prefix is `dropWhile`. -/
theorem drop_length_takeWhile {α : Type} (p : α → Bool) :
    ∀ l : List α, l.drop (l.takeWhile p).length = l.dropWhile p
  | [] => rfl
  | a :: t => by
    by_cases hp : p a
    · simp [List.takeWhile_cons, List.dropWhile_cons, hp, drop_length_takeWhile p t]
    · simp [List.takeWhile_cons, List.dropWhile_cons, hp]

/-- Indexing is the head of the dropped suffix. -/
theorem get?_eq_head_drop {α : Type} :
    ∀ (l : List α) (n : Nat), l.get? n = (l.drop n).head?
  | [], _ => by simp
  | _ :: _, 0 => rfl
  | _ :: t, n + 1 => by
    simp only [List.get?_cons_succ, List.drop_succ_cons]
    exact get?_eq_head_drop t n

/-- First element surviving `dropWhile` fails the predicate. -/
theorem dropWhile_head_not {α : Type} (p : α → Bool) :
    ∀ (l : List α) (y : α) (ys : List α), l.dropWhile p = y :: ys → p y = false
  | [], _, _, h => by simp at h
  | a :: t, y, ys, h => by
    rw [List.dropWhile_cons] at h
    by_cases hp : p a
    · rw [if_pos hp] at h
      exact dropWhile_head_not p t y ys h
    · rw [if_neg hp] at h
      injection h with h1 _
      subst h1
      simp at hp
      exact hp

/-- Inserting between a lower part and an upper part preserves strict
sortedness. -/
theorem sortedNames_insert (t d : List Str) (x : Str)
    (h : SortedNames (t ++ d))
    (ht : ∀ a ∈ t, strLt a x = true)
    (hd : ∀ b ∈ d, strLt x b = true) :
    SortedNames (t ++ x :: d) := by
  rw [SortedNames, List.pairwise_append] at h ⊢
  obtain ⟨hpt, hpd, hcross⟩ := h
  refine ⟨hpt, ?_, ?_⟩
  · rw [List.pairwise_cons]
    exact ⟨hd, hpd⟩
  · intro a ha b hb
    rcases List.mem_cons.mp hb with hb | hb
    · subst hb
      exact ht a ha
    · exact hcross a ha b hb

/-- `appendInOrderWithoutRepeats` keeps the list strictly sorted and ensures
membership of the added string. -/
theorem appendInOrderWithoutRepeats_spec (array : List Str) (toAdd : Str)
    (h : SortedNames array) :
    SortedNames (appendInOrderWithoutRepeats array toAdd) ∧
      toAdd ∈ appendInOrderWithoutRepeats array toAdd := by
  have htake := take_length_takeWhile (fun s => strLt s toAdd) array
  have hdrop := drop_length_takeWhile (fun s => strLt s toAdd) array
  have hsplit : array.takeWhile (fun s => strLt s toAdd) ++
      array.dropWhile (fun s => strLt s toAdd) = array :=
    List.takeWhile_append_dropWhile (fun s => strLt s toAdd) array
  have hsorted : SortedNames (array.takeWhile (fun s => strLt s toAdd) ++
      array.dropWhile (fun s => strLt s toAdd)) := by
    rw [hsplit]
    exact h
  have ht : ∀ a ∈ array.takeWhile (fun s => strLt s toAdd), strLt a toAdd = true := by
    intro a ha
    have := List.mem_takeWhile_imp ha
    simpa using this
  simp only [appendInOrderWithoutRepeats]
  by_cases hcond : (array.takeWhile (fun s => strLt s toAdd)).length = array.length ∨
      ¬ array.get? (array.takeWhile (fun s => strLt s toAdd)).length = some toAdd
  · rw [if_pos hcond, htake, hdrop]
    refine ⟨?_, by simp⟩
    rcases hdw : array.dropWhile (fun s => strLt s toAdd) with - | ⟨y, ys⟩
    · rw [hdw] at hsorted
      exact sortedNames_insert _ [] toAdd hsorted ht (by simp)
    · rw [hdw] at hsorted
      have hyP : strLt y toAdd = false :=
        dropWhile_head_not (fun s => strLt s toAdd) array y ys hdw
      have hlt : (array.takeWhile (fun s => strLt s toAdd)).length < array.length := by
        by_contra hge
        have : array.drop (array.takeWhile (fun s => strLt s toAdd)).length = [] :=
          List.drop_eq_nil_of_le (Nat.le_of_not_lt hge)
        rw [hdrop, hdw] at this
        cases this
      have hget : ¬ array.get? (array.takeWhile (fun s => strLt s toAdd)).length =
          some toAdd := by
        rcases hcond with hc | hc
        · exact absurd hc (Nat.ne_of_lt hlt)
        · exact hc
      have hy : array.get? (array.takeWhile (fun s => strLt s toAdd)).length = some y := by
        rw [get?_eq_head_drop, hdrop, hdw]
        rfl
      have hyne : y ≠ toAdd := by
        intro he
        rw [he] at hy
        exact hget hy
      have hxy : strLt toAdd y = true := by
        cases hb : strLt toAdd y
        · exact absurd (strLt_connex toAdd y hb hyP) (fun he => hyne he.symm)
        · rfl
      have hdAll : ∀ b ∈ y :: ys, strLt toAdd b = true := by
        intro b hb
        rcases List.mem_cons.mp hb with hb | hb
        · subst hb
          exact hxy
        · have hyd : strLt y b = true := by
            rw [SortedNames, List.pairwise_append] at hsorted
            exact (List.pairwise_cons.mp hsorted.2.1).1 b hb
          exact strLt_trans toAdd y b hxy hyd
      exact sortedNames_insert _ (y :: ys) toAdd hsorted ht hdAll
  · rw [if_neg hcond]
    push_neg at hcond
    obtain ⟨-, hget⟩ := hcond
    exact ⟨h, List.get?_mem hget⟩

/-- If some element at index `i` satisfies `p` then `find?` returns the
element at the least satisfying index, which is at most `i`. -/
theorem find?_first_of_get? {α : Type} (p : α → Bool) :
    ∀ (l : List α) (i : Nat) (x : α), l.get? i = some x → p x = true →
      ∃ k y, k ≤ i ∧ l.get? k = some y ∧ p y = true ∧
        (∀ j z, j < k → l.get? j = some z → p z = false) ∧ l.find? p = some y
  | [], i, x, hx, _ => by simp at hx
  | a :: t, i, x, hx, hpx => by
    by_cases hpa : p a = true
    · exact ⟨0, a, Nat.zero_le i, rfl, hpa, by omega, by rw [List.find?_cons_of_pos _ hpa]⟩
    · have hpa' : p a = false := by
        cases h : p a
        · rfl
        · exact absurd h hpa
      match i with
      | 0 =>
        rw [List.get?_cons_zero] at hx
        injection hx with hx
        subst hx
        exact absurd hpx hpa
      | i + 1 =>
        rw [List.get?_cons_succ] at hx
        obtain ⟨k, y, hki, hky, hpy, hmin, hfind⟩ := find?_first_of_get? p t i x hx hpx
        refine ⟨k + 1, y, Nat.succ_le_succ hki, by rw [List.get?_cons_succ]; exact hky,
          hpy, ?_, by rw [List.find?_cons_of_neg _ hpa]; exact hfind⟩
        intro j z hj hz
        match j with
        | 0 =>
          rw [List.get?_cons_zero] at hz
          injection hz with hz
          subst hz
          exact hpa'
        | j + 1 =>
          rw [List.get?_cons_succ] at hz
          exact hmin j z (Nat.lt_of_succ_lt_succ hj) hz

/-- A successful `find?` found the element at the least satisfying index. -/
theorem find?_eq_some_first {α : Type} (p : α → Bool) :
    ∀ (l : List α) (y : α), l.find? p = some y →
      ∃ k, l.get? k = some y ∧ p y = true ∧
        (∀ j z, j < k → l.get? j = some z → p z = false)
  | [], y, h => by simp at h
  | a :: t, y, h => by
    by_cases hpa : p a = true
    · rw [List.find?_cons_of_pos _ hpa] at h
      injection h with h
      subst h
      exact ⟨0, rfl, hpa, by omega⟩
    · have hpa' : p a = false := by
        cases hc : p a
        · rfl
        · exact absurd hc hpa
      rw [List.find?_cons_of_neg _ hpa] at h
      obtain ⟨k, hky, hpy, hmin⟩ := find?_eq_some_first p t y h
      refine ⟨k + 1, by rw [List.get?_cons_succ]; exact hky, hpy, ?_⟩
      intro j z hj hz
      match j with
      | 0 =>
        rw [List.get?_cons_zero] at hz
        injection hz with hz
        subst hz
        exact hpa'
      | j + 1 =>
        rw [List.get?_cons_succ] at hz
        exact hmin j z (Nat.lt_of_succ_lt_succ hj) hz

/-- Shorthand for `cmd.Regexp().MatchString(s)` guarded by
`IsRegexpCommand`. -/
def regexpMatches (cmd : HandlerDoc) (s : Str) : Bool :=
  match cmd.cmdRegexp with
  | some exp => exp s
  | none => false

/-- `findCommandRegexp` is `find?` with the `regexpMatches` predicate. -/
theorem findCommandRegexp_eq_find? (d : Dispatch) (commandPart : Str) :
    findCommandRegexp d commandPart =
      d.regexpCommands.find? (fun cmd => regexpMatches cmd commandPart) := by
  rfl

/-- On an addressed message, `ProcessMessage` runs the command path with the
prefix-stripped text, falling back to the default handler. -/
theorem processMessage_addressed (d : Dispatch) (m : Message)
    (h : isAddressed d m = true) :
    processMessage d m =
      match matchCommands d (remainingText d m) with
      | some act => act
      | none => callDefault d (remainingText d m) := by
  rw [processMessage, if_pos h]

/-- On a non-addressed message, `ProcessMessage` runs the free-pattern
path. -/
theorem processMessage_not_addressed (d : Dispatch) (m : Message)
    (h : isAddressed d m = false) :
    processMessage d m = matchPatterns d m := by
  have h0 : nameMatchLen d m = 0 := by
    rw [isAddressed] at h
    rcases Bool.or_eq_false_iff.mp h with ⟨h1, -⟩
    simpa using of_decide_eq_false h1
  rw [processMessage, if_neg (by rw [h]; exact Bool.noConfusion), if_pos h0]

/-- The command path only ever produces command invocations. -/
theorem matchCommands_shape (d : Dispatch) (t : Str) (a : DispatchAction)
    (h : matchCommands d t = some a) :
    (∃ hnd f, a = DispatchAction.invokeCommand hnd f) ∨
      (∃ hnd f, a = DispatchAction.invokeRegexpCommand hnd f) := by
  rw [matchCommands] at h
  match hp : parseFields t with
  | [] =>
    rw [hp] at h
    cases h
  | first :: fields =>
    rw [hp] at h
    simp only at h
    match hl : mapLookup d.commands (toLowerStr first) with
    | some command =>
      rw [hl] at h
      simp only at h
      by_cases hr : command.cmdRegexp.isSome = true
      · rw [if_pos hr] at h
        rw [matchCommandRegexp] at h
        match hf : findCommandRegexp d (toLowerStr first) with
        | none => rw [hf] at h; cases h
        | some cmd =>
          rw [hf] at h
          injection h with h
          exact Or.inr ⟨cmd.cmdHandler, fields, h.symm⟩
      · rw [if_neg hr] at h
        injection h with h
        exact Or.inl ⟨command.cmdHandler, fields, h.symm⟩
    | none =>
      rw [hl] at h
      rw [matchCommandRegexp] at h
      match hf : findCommandRegexp d (toLowerStr first) with
      | none => rw [hf] at h; cases h
      | some cmd =>
        rw [hf] at h
        injection h with h
        exact Or.inr ⟨cmd.cmdHandler, fields, h.symm⟩

/-- The default-handler path only ever produces a default invocation or the
missing-default log. -/
theorem callDefault_shape (d : Dispatch) (t : Str) :
    (∃ hnd, callDefault d t = DispatchAction.invokeDefault hnd (parseFields t)) ∨
      callDefault d t = DispatchAction.logNoDefault := by
  rw [callDefault]
  match hd : d.defaultHandler with
  | some h => exact Or.inl ⟨h, rfl⟩
  | none => exact Or.inr rfl

/-! Concrete fixtures used by the claim theorems. -/

/-- The bot name `bot` used by the spec's addressing examples. -/
def botStr : Str := "bot".toList

/-- A plain exact-name command under handler id 1. -/
def echoDoc : HandlerDoc :=
  { cmdHandler := 1
    cmdName := "echo".toList
    cmdDescription := "say it back".toList
    cmdUsage := []
    cmdIsHidden := false
    cmdRegexp := none }

/-- The same command registered under its original-case name `Echo`. -/
def echoUpperDoc : HandlerDoc :=
  { echoDoc with cmdName := "Echo".toList }

/-- A non-hidden regexp command under handler id 4 (pattern matching any
first token). -/
def regexpFooDoc : HandlerDoc :=
  { cmdHandler := 4
    cmdName := "foo".toList
    cmdDescription := "a regexp command".toList
    cmdUsage := []
    cmdIsHidden := false
    cmdRegexp := none }

/-- A registry holding exactly one non-hidden regexp command. -/
def dRegexpOnly : Dispatch :=
  HandleCommandRegexp (newDispatch botStr) (fun _ => true) regexpFooDoc

/-! Claim theorems. -/

/-- C1 (counterexample): the compiled prefix regex is `(?i)^@bot\s*[:,]?\s*`
with a mandatory `@`, so the text `bot hi` is not matched and a non-direct
message with this text is not treated as addressed — it falls through to the
(empty) free-pattern branch and is dropped even though a default handler is
set, contradicting the claim's "optional leading '@'". -/
theorem claim1_counterexample :
    botNameMatchLen botStr "bot hi".toList = none ∧
    processMessage (SetDefaultHandler (newDispatch botStr) 7)
      { text := "bot hi".toList, isDirectMessage := false } =
      DispatchAction.dropped := by
  decide

/-- C1 (amended): with bot name `bot`, the texts `@bot: hi` and `@bot, hi`
are matched by the addressing prefix regex (match length 6), the matched
prefix is stripped so the remaining text processed is `hi`; the leading `@`
is mandatory, so `bot hi` does not match — in general any text matched by the
prefix regex starts with `@`. -/
theorem claim1_amended :
    (botNameMatchLen botStr "@bot: hi".toList = some 6 ∧
      "@bot: hi".toList.drop 6 = "hi".toList ∧
      processMessage (SetDefaultHandler (newDispatch botStr) 7)
        { text := "@bot: hi".toList, isDirectMessage := false } =
        DispatchAction.invokeDefault 7 ["hi".toList]) ∧
    (botNameMatchLen botStr "@bot, hi".toList = some 6 ∧
      "@bot, hi".toList.drop 6 = "hi".toList ∧
      processMessage (SetDefaultHandler (newDispatch botStr) 7)
        { text := "@bot, hi".toList, isDirectMessage := false } =
        DispatchAction.invokeDefault 7 ["hi".toList]) ∧
    (∀ name text : Str, botNameMatchLen name text ≠ none → text.head? = some '@') :=
  ⟨by decide, by decide, botNameMatchLen_head⟩

/-- C1 (witness): the amended theorem's universal part applied to the
matching text `@bot: hi`. -/
theorem claim1_witness :
    botNameMatchLen botStr "@bot: hi".toList ≠ none ∧
    ("@bot: hi".toList : Str).head? = some '@' :=
  ⟨by decide, claim1_amended.2.2 botStr "@bot: hi".toList (by decide)⟩

/-- C2 (counterexample): the prefix regex has no word boundary, so with bot
name `bot` the text `@botling hello` IS matched (match `@bot`, length 4): a
non-direct message with this text is treated as addressed, the prefix is
stripped, and the remaining text `ling hello` is processed (the default
handler receives `["ling", "hello"]`), contradicting the claim. -/
theorem claim2_counterexample :
    botNameMatchLen botStr "@botling hello".toList = some 4 ∧
    processMessage (SetDefaultHandler (newDispatch botStr) 7)
      { text := "@botling hello".toList, isDirectMessage := false } =
      DispatchAction.invokeDefault 7 ["ling".toList, "hello".toList] := by
  decide

/-- C2 (amended): a first word strictly extending the bot's name escapes the
addressing prefix only when the mandatory leading `@` is absent: `botling
hello` does not match and is dropped, whereas `@botling hello` is matched
with `@bot` stripped (no word-boundary check), leaving `ling hello`. -/
theorem claim2_amended :
    botNameMatchLen botStr "botling hello".toList = none ∧
    processMessage (SetDefaultHandler (newDispatch botStr) 7)
      { text := "botling hello".toList, isDirectMessage := false } =
      DispatchAction.dropped ∧
    botNameMatchLen botStr "@botling hello".toList = some 4 ∧
    ("@botling hello".toList : Str).drop 4 = "ling hello".toList := by
  decide

/-- C3: the tokenizer splits on whitespace runs outside quotes, a matching
pair of quotes yields one verbatim token with the quotes stripped, an
unterminated trailing quote yields its content up to end-of-string, and
empty/all-whitespace input yields the empty sequence; including the claim's
five concrete cases. -/
theorem claim3_tokenizer :
    parseFields [] = [] ∧
    parseFields "   \t ".toList = [] ∧
    parseFields "a b".toList = ["a".toList, "b".toList] ∧
    parseFields "\"a b\" c".toList = ["a b".toList, "c".toList] ∧
    parseFields "\"ab".toList = ["ab".toList] ∧
    (∀ input : Str, (∀ c ∈ input, goIsSpace c = true) → parseFields input = []) ∧
    (∀ content rest : Str, '"' ∉ content →
      parseFields ('"' :: content ++ '"' :: rest) = content :: parseFields rest) ∧
    (∀ content : Str, '"' ∉ content → parseFields ('"' :: content) = [content]) := by
  refine ⟨by decide, by decide, by decide, by decide, by decide, ?_, ?_, ?_⟩
  · exact fun input h => parseFieldsAux_all_space input h
  · intro content rest h
    have h1 : parseFields ('"' :: content ++ '"' :: rest) =
        parseFieldsAux (content ++ '"' :: rest) false (some []) := rfl
    rw [h1, parseFieldsAux_quoted content rest h []]
    simp [parseFields]
  · intro content h
    have h1 : parseFields ('"' :: content) =
        parseFieldsAux content false (some []) := rfl
    rw [h1, parseFieldsAux_open content h []]
    simp

/-- C3 (witness): the three universally quantified parts applied to concrete
inputs. -/
theorem claim3_witness :
    parseFields " \t".toList = [] ∧
    parseFields ('"' :: "a b".toList ++ '"' :: " c".toList) =
      "a b".toList :: parseFields " c".toList ∧
    parseFields ('"' :: "ab".toList) = ["ab".toList] :=
  ⟨claim3_tokenizer.2.2.2.2.2.1 " \t".toList (by decide),
   claim3_tokenizer.2.2.2.2.2.2.1 "a b".toList " c".toList (by decide),
   claim3_tokenizer.2.2.2.2.2.2.2 "ab".toList (by decide)⟩

/-- C5: evaluation at the failing input.  A registry holding exactly one
non-hidden regexp command (registered through `HandleCommandRegexp`, which
does add its name to the sorted name list, and reachable by dispatch) renders
an EMPTY help list: `showAllCommands` looks every name up in the
exact-command map only, so regexp-command names are skipped and their
name/description is never rendered, contradicting the claim that both kinds
are listed. -/
theorem claim5_regexp_command_not_listed :
    dRegexpOnly.regexpCommands.length = 1 ∧
    (∀ cmd ∈ dRegexpOnly.regexpCommands, cmd.cmdIsHidden = false) ∧
    dRegexpOnly.commandNames = ["foo".toList] ∧
    processMessage dRegexpOnly { text := "foo".toList, isDirectMessage := true } =
      DispatchAction.invokeRegexpCommand 4 [] ∧
    showAllCommandsEntries dRegexpOnly = [] := by
  refine ⟨rfl, ?_, by decide, by decide, rfl⟩
  intro cmd hcmd
  have : cmd = { regexpFooDoc with cmdRegexp := some (fun _ => true) } := by
    simpa [dRegexpOnly, HandleCommandRegexp, newDispatch] using hcmd
  rw [this]
  rfl

/-- C10: an adjacent pair of double quotes yields an empty-string token
(`a "" b` tokenizes to `["a", "", "b"]`), while input free of quote
characters never yields an empty token. -/
theorem claim10_empty_quoted_token :
    parseFields "a \"\" b".toList = ["a".toList, [], "b".toList] ∧
    (∀ input : Str, '"' ∉ input → [] ∉ parseFields input) := by
  refine ⟨by decide, ?_⟩
  intro input h
  exact parseFieldsAux_no_empty input h true none (by simp)

/-- C10 (witness): the universal no-empty-token part applied to `a b`. -/
theorem claim10_witness :
    '"' ∉ "a b".toList ∧ [] ∉ parseFields "a b".toList :=
  ⟨by decide, claim10_empty_quoted_token.2 "a b".toList (by decide)⟩

/-- C4: on an addressed message whose lower-cased first token matches neither
an exact-name command nor any regexp command, the default handler (when set)
receives the tokenization of the full remaining text — so the attempted
command word is its first argument — and when no default handler is set the
outcome is only the log line, with no error to the caller. -/
theorem claim4_default_fallback (d : Dispatch) (m : Message) (first : Str)
    (rest : List Str)
    (haddr : isAddressed d m = true)
    (htok : parseFields (remainingText d m) = first :: rest)
    (hexact : mapLookup d.commands (toLowerStr first) = none)
    (hregexp : findCommandRegexp d (toLowerStr first) = none) :
    (∀ hdl, d.defaultHandler = some hdl →
      processMessage d m = DispatchAction.invokeDefault hdl (first :: rest)) ∧
    (d.defaultHandler = none → processMessage d m = DispatchAction.logNoDefault) := by
  have hmc : matchCommands d (remainingText d m) = none := by
    simp [matchCommands, htok, hexact, matchCommandRegexp, hregexp]
  have hpm : processMessage d m = callDefault d (remainingText d m) := by
    rw [processMessage_addressed d m haddr, hmc]
  constructor
  · intro hdl hd
    rw [hpm]
    simp [callDefault, htok, hd]
  · intro hd
    rw [hpm]
    simp [callDefault, hd]

/-- C4 (witness): scenario 2 of the spec — no commands registered, default
handler 2 set, direct message `xyz`: the default handler is invoked with
`["xyz"]`, the attempted command word itself. -/
theorem claim4_witness :
    processMessage (SetDefaultHandler (newDispatch botStr) 2)
      { text := "xyz".toList, isDirectMessage := true } =
      DispatchAction.invokeDefault 2 ["xyz".toList] :=
  (claim4_default_fallback (SetDefaultHandler (newDispatch botStr) 2)
    { text := "xyz".toList, isDirectMessage := true } "xyz".toList []
    (by decide) (by decide) rfl rfl).1 2 rfl

/-- C6: on an addressed message whose lower-cased first token matches no
exact-name command but matches the regexp commands at positions `i < j`, the
regexp-command list is searched in registration order: the invoked command
sits at the least matching index `k ≤ i < j` (so the later-registered one is
never the invoked one), every command before `k` fails to match, and the
pattern is applied to the first token only, with the remaining tokens passed
as arguments. -/
theorem claim6_regexp_order (d : Dispatch) (m : Message) (first : Str)
    (rest : List Str) (i j : Nat) (ci cj : HandlerDoc)
    (haddr : isAddressed d m = true)
    (htok : parseFields (remainingText d m) = first :: rest)
    (hexact : mapLookup d.commands (toLowerStr first) = none)
    (hij : i < j)
    (hi : d.regexpCommands.get? i = some ci)
    (_hj : d.regexpCommands.get? j = some cj)
    (hmi : regexpMatches ci (toLowerStr first) = true)
    (_hmj : regexpMatches cj (toLowerStr first) = true) :
    ∃ k ck, k ≤ i ∧ k < j ∧ d.regexpCommands.get? k = some ck ∧
      regexpMatches ck (toLowerStr first) = true ∧
      (∀ l cl, l < k → d.regexpCommands.get? l = some cl →
        regexpMatches cl (toLowerStr first) = false) ∧
      processMessage d m = DispatchAction.invokeRegexpCommand ck.cmdHandler rest := by
  obtain ⟨k, y, hki, hky, hpy, hmin, hfind⟩ :=
    find?_first_of_get? (fun cmd => regexpMatches cmd (toLowerStr first))
      d.regexpCommands i ci hi hmi
  refine ⟨k, y, hki, lt_of_le_of_lt hki hij, hky, hpy, hmin, ?_⟩
  have hfcr : findCommandRegexp d (toLowerStr first) = some y := by
    rw [findCommandRegexp_eq_find?]
    exact hfind
  have hmc : matchCommands d (remainingText d m) =
      some (DispatchAction.invokeRegexpCommand y.cmdHandler rest) := by
    simp [matchCommands, htok, hexact, matchCommandRegexp, hfcr]
  rw [processMessage_addressed d m haddr, hmc]

/-- A registry with two regexp commands, the first (handler 10) matching only
the token `go`, the second (handler 11) matching anything. -/
def dTwoRegexp : Dispatch :=
  HandleCommandRegexp
    (HandleCommandRegexp (newDispatch botStr) (fun s => s == "go".toList)
      { cmdHandler := 10
        cmdName := "go".toList
        cmdDescription := []
        cmdUsage := []
        cmdIsHidden := false
        cmdRegexp := none })
    (fun _ => true)
    { cmdHandler := 11
      cmdName := "any".toList
      cmdDescription := []
      cmdUsage := []
      cmdIsHidden := false
      cmdRegexp := none }

/-- C6 (witness): with both regexp commands of `dTwoRegexp` matching the
first token `go` of a direct message, the first-registered one (index 0) is
the one invoked. -/
theorem claim6_witness :
    ∃ k ck, k ≤ 0 ∧ k < 1 ∧ dTwoRegexp.regexpCommands.get? k = some ck ∧
      regexpMatches ck (toLowerStr "go".toList) = true ∧
      (∀ l cl, l < k → dTwoRegexp.regexpCommands.get? l = some cl →
        regexpMatches cl (toLowerStr "go".toList) = false) ∧
      processMessage dTwoRegexp { text := "go now".toList, isDirectMessage := true } =
        DispatchAction.invokeRegexpCommand ck.cmdHandler ["now".toList] :=
  claim6_regexp_order dTwoRegexp { text := "go now".toList, isDirectMessage := true }
    "go".toList ["now".toList] 0 1 _ _ (by decide) (by decide) rfl (by decide)
    rfl rfl (by decide) (by decide)

/-- C7: a non-addressed message (no prefix match, not direct) is run against
the free-pattern list in registration order against the full original text —
the first match is invoked with an empty argument list, and if none matches
the message is dropped; an addressed message never invokes a free-pattern
handler. -/
theorem claim7_free_patterns (d : Dispatch) (m : Message) :
    (botNameMatchLen d.botName m.text = none → m.isDirectMessage = false →
      ((∃ k pr, d.patterns.get? k = some pr ∧ pr.exp m.text = true ∧
        (∀ l q, l < k → d.patterns.get? l = some q → q.exp m.text = false) ∧
        processMessage d m = DispatchAction.invokePattern pr.handle []) ∨
       ((∀ pr ∈ d.patterns, pr.exp m.text = false) ∧
        processMessage d m = DispatchAction.dropped))) ∧
    (isAddressed d m = true →
      ∀ hdl f, processMessage d m ≠ DispatchAction.invokePattern hdl f) := by
  constructor
  · intro hmatch hdm
    have haddr : isAddressed d m = false := by
      rw [isAddressed, nameMatchLen, hmatch, hdm]
      rfl
    have hpm := processMessage_not_addressed d m haddr
    cases hf : d.patterns.find? (fun pair => pair.exp m.text) with
    | some pr =>
      obtain ⟨k, hk, hpk, hmin⟩ := find?_eq_some_first _ d.patterns pr hf
      exact Or.inl ⟨k, pr, hk, hpk, hmin, by rw [hpm, matchPatterns, hf]⟩
    | none =>
      refine Or.inr ⟨?_, by rw [hpm, matchPatterns, hf]⟩
      intro pr hpr
      cases hb : pr.exp m.text
      · rfl
      · exact absurd hb (List.find?_eq_none.mp hf pr hpr)
  · intro haddr hdl f
    rw [processMessage_addressed d m haddr]
    cases hmc : matchCommands d (remainingText d m) with
    | some a =>
      rcases matchCommands_shape d _ a hmc with ⟨h2, f2, ha⟩ | ⟨h2, f2, ha⟩ <;>
        subst ha <;> simp
    | none =>
      rcases callDefault_shape d (remainingText d m) with ⟨h2, hcd⟩ | hcd <;>
        rw [hcd] <;> simp

/-- A registry with one free pattern (handler 3) matching any text starting
with `thanks`. -/
def dPat : Dispatch :=
  HandleRegexp (newDispatch botStr) (fun s => s.take 6 == "thanks".toList) 3

/-- C7 (witness): the non-addressed message `thanks!` triggers the free
pattern (first matching index, empty argument list), while the same text as
a direct message never reaches a free-pattern handler. -/
theorem claim7_witness :
    ((∃ k pr, dPat.patterns.get? k = some pr ∧
        pr.exp "thanks!".toList = true ∧
        (∀ l q, l < k → dPat.patterns.get? l = some q →
          q.exp "thanks!".toList = false) ∧
        processMessage dPat { text := "thanks!".toList, isDirectMessage := false } =
          DispatchAction.invokePattern pr.handle []) ∨
      ((∀ pr ∈ dPat.patterns, pr.exp "thanks!".toList = false) ∧
        processMessage dPat { text := "thanks!".toList, isDirectMessage := false } =
          DispatchAction.dropped)) ∧
    processMessage dPat { text := "thanks!".toList, isDirectMessage := true } ≠
      DispatchAction.invokePattern 3 [] :=
  ⟨(claim7_free_patterns dPat { text := "thanks!".toList, isDirectMessage := false }).1
      rfl rfl,
   (claim7_free_patterns dPat { text := "thanks!".toList, isDirectMessage := true }).2
      (by decide) 3 []⟩

/-- C8 (counterexample): registering a command under the original-case name
`Echo` puts only the lower-cased `echo` into the display-name list; the
original-case name is NOT in the list, contradicting the claim's "contains
the newly registered command's original-case name". -/
theorem claim8_counterexample :
    (HandleCommand (newDispatch botStr) echoUpperDoc).commandNames = ["echo".toList] ∧
    "Echo".toList ∉ (HandleCommand (newDispatch botStr) echoUpperDoc).commandNames := by
  constructor
  · decide
  · intro h
    have h2 : ("Echo".toList : Str) ∈ (["echo".toList] : List Str) := by
      have he : (HandleCommand (newDispatch botStr) echoUpperDoc).commandNames =
          ["echo".toList] := by decide
      rw [he] at h
      exact h
    revert h2
    decide

/-- C8 (amended): after every `HandleCommand` on a registry whose name list
is strictly sorted, the list is still strictly sorted, duplicate-free, and
contains the LOWER-CASED registered name (the original case is preserved only
in the stored command's `CmdName`, not in the name list). -/
theorem claim8_amended (d : Dispatch) (cmd : HandlerDoc)
    (h : SortedNames d.commandNames) :
    SortedNames (HandleCommand d cmd).commandNames ∧
    (HandleCommand d cmd).commandNames.Nodup ∧
    toLowerStr cmd.cmdName ∈ (HandleCommand d cmd).commandNames := by
  have hs := appendInOrderWithoutRepeats_spec d.commandNames (toLowerStr cmd.cmdName) h
  exact ⟨hs.1, hs.1.nodup, hs.2⟩

/-- C8 (witness): the amended theorem applied to registering `echo` in a
fresh registry. -/
theorem claim8_witness :
    SortedNames (HandleCommand (newDispatch botStr) echoDoc).commandNames ∧
    (HandleCommand (newDispatch botStr) echoDoc).commandNames.Nodup ∧
    toLowerStr echoDoc.cmdName ∈ (HandleCommand (newDispatch botStr) echoDoc).commandNames :=
  claim8_amended (newDispatch botStr) echoDoc List.Pairwise.nil

/-- C9: a handler panic never escapes `ProcessMessage` — the deferred
`recover` converts it into a normal return whose log entry carries the
message text and the panic value, so processing of subsequent messages is
unaffected. -/
theorem claim9_panic_recovery (behaviors : HandlerBehaviors) (d : Dispatch)
    (m : Message) :
    (∀ e, processMessageRun behaviors d m ≠ ProcessOutcome.panicked e) ∧
    (∀ e, runAction behaviors (processMessage d m) = Except.error e →
      processMessageRun behaviors d m = ProcessOutcome.completed (some (m.text, e))) := by
  constructor
  · intro e
    simp only [processMessageRun, processMessageNoRecover]
    cases h : runAction behaviors (processMessage d m) with
    | error e2 => simp [recoverWrap]
    | ok u => simp [recoverWrap]
  · intro e he
    simp only [processMessageRun, processMessageNoRecover, he]
    rfl

/-- Handler behaviour in which every handler panics with value `boom`. -/
def panicBehaviors : HandlerBehaviors := fun _ => Except.error "boom".toList

/-- C9 (witness): a panicking default handler on a direct message `xyz` is
recovered — `ProcessMessage` completes normally and logs the message text
with the panic value. -/
theorem claim9_witness :
    processMessageRun panicBehaviors (SetDefaultHandler (newDispatch botStr) 2)
      { text := "xyz".toList, isDirectMessage := true } =
      ProcessOutcome.completed (some ("xyz".toList, "boom".toList)) ∧
    processMessageRun panicBehaviors (SetDefaultHandler (newDispatch botStr) 2)
      { text := "xyz".toList, isDirectMessage := true } ≠
      ProcessOutcome.panicked "boom".toList :=
  ⟨(claim9_panic_recovery panicBehaviors (SetDefaultHandler (newDispatch botStr) 2)
      { text := "xyz".toList, isDirectMessage := true }).2 "boom".toList rfl,
   (claim9_panic_recovery panicBehaviors (SetDefaultHandler (newDispatch botStr) 2)
      { text := "xyz".toList, isDirectMessage := true }).1 "boom".toList⟩

end Victor
